import Mathlib

/-!
Verification of the mvn generic container library (dynamic array
`mvn_list_t` and separate-chaining hash map `mvn_hmap_t`), shallowly
embedded from `src/source/mvn-list.c` and `src/source/mvn-hashmap.c`.

Elements and keys are modelled as byte blobs (`List Nat`, each entry a
byte value); machine `size_t` arithmetic that can wrap (the FNV-1a hash)
is modelled with explicit `% 2 ^ w`.  The list's buffer is modelled as
the list of its initialized elements (reads are always bounds-checked
against `length` in the C code, so the uninitialized tail of the buffer
is unobservable); `capacity` is carried as a field exactly as the C code
maintains it.  Allocation is assumed to succeed except where the C code
has an explicit argument or overflow check; those checks are embedded
faithfully.
-/

namespace Mvn

/-- `(size_t)-1` on an LP64 platform, also used as the slice sentinel. -/
def SIZE_MAX : Nat := 2 ^ 64 - 1

/-! ## Dynamic array (`mvn-list.c`) -/

/-- Default initial capacity if none is specified (`MVN_LIST_DEFAULT_CAPACITY`). -/
def MVN_LIST_DEFAULT_CAPACITY : Nat := 8

/-- Growth factor when resizing (`MVN_LIST_GROWTH_FACTOR`). -/
def MVN_LIST_GROWTH_FACTOR : Nat := 2

/-- The dynamic array.  `data` is the list of initialized elements, so the
C `length` field is `data.length`; `capacity` is the allocated slot count. -/
structure mvn_list_t where
  item_size : Nat
  capacity : Nat
  data : List (List Nat)
deriving DecidableEq

/-- `mvn_list_length`: the C `length` field (number of initialized elements). -/
def mvn_list_t.length (l : mvn_list_t) : Nat := l.data.length

/-- `mvn_list_init`: fails on `item_size == 0`; a zero capacity request is
replaced by the default capacity; the buffer starts uninitialized (no elements). -/
def mvn_list_init (item_size initial_capacity : Nat) : Option mvn_list_t :=
  if item_size = 0 then none
  else
    let cap := if initial_capacity = 0 then MVN_LIST_DEFAULT_CAPACITY else initial_capacity
    some { item_size := item_size, capacity := cap, data := [] }

/-- `mvn_list_resize`: the request is raised to `length`, an unchanged
capacity returns early, and a positive request below the default capacity
is snapped up to the default.  Reallocation is modelled as always
succeeding, so the C `bool` result is dropped. -/
def mvn_list_resize (l : mvn_list_t) (new_capacity : Nat) : mvn_list_t :=
  let nc := if new_capacity < l.length then l.length else new_capacity
  if nc = l.capacity then l
  else
    let nc2 := if 0 < nc ∧ nc < MVN_LIST_DEFAULT_CAPACITY then MVN_LIST_DEFAULT_CAPACITY else nc
    { l with capacity := nc2 }

/-- `mvn_list_ensure_capacity`: grow by the growth factor (seed to the
default if the doubled capacity is zero) when the list is full. -/
def mvn_list_ensure_capacity (l : mvn_list_t) : mvn_list_t :=
  if l.capacity ≤ l.length then
    let nc := l.capacity * MVN_LIST_GROWTH_FACTOR
    let nc2 := if nc = 0 then MVN_LIST_DEFAULT_CAPACITY else nc
    mvn_list_resize l nc2
  else l

/-- `mvn_list_get`: bounds-checked against `length`. -/
def mvn_list_get (l : mvn_list_t) (index : Nat) : Option (List Nat) :=
  l.data.get? index

/-- `mvn_list_set`: bounds-checked against `length`. -/
def mvn_list_set (l : mvn_list_t) (index : Nat) (item : List Nat) : Option mvn_list_t :=
  if l.length ≤ index then none
  else some { l with data := l.data.set index item }

/-- `mvn_list_push`: ensure capacity, then append one element. -/
def mvn_list_push (l : mvn_list_t) (item : List Nat) : mvn_list_t :=
  let l2 := mvn_list_ensure_capacity l
  { l2 with data := l2.data ++ [item] }

/-- `mvn_list_push_batch`: rejects `count == 0`; grows once to
`(length + count) * growth_factor` when the batch does not fit, then
appends the `count` items in one block copy. -/
def mvn_list_push_batch (l : mvn_list_t) (items : List (List Nat)) (count : Nat) :
    Option mvn_list_t :=
  if count = 0 then none
  else
    let l2 := if l.capacity < l.length + count then
        mvn_list_resize l ((l.length + count) * MVN_LIST_GROWTH_FACTOR)
      else l
    some { l2 with data := l2.data ++ items.take count }

/-- `mvn_list_pop`: fails on an empty list; copies out the last element
and decrements `length`. -/
def mvn_list_pop (l : mvn_list_t) : Option (List Nat × mvn_list_t) :=
  match l.data.getLast? with
  | none => none
  | some x => some (x, { l with data := l.data.dropLast })

/-- `mvn_list_unshift`: ensure capacity, shift everything right, write at 0. -/
def mvn_list_unshift (l : mvn_list_t) (item : List Nat) : mvn_list_t :=
  let l2 := mvn_list_ensure_capacity l
  { l2 with data := item :: l2.data }

/-- `mvn_list_shift`: fails on an empty list; copies out the first element
and block-moves the rest left. -/
def mvn_list_shift (l : mvn_list_t) : Option (List Nat × mvn_list_t) :=
  match l.data with
  | [] => none
  | x :: rest => some (x, { l with data := rest })

/-- `mvn_list_slice`: `end == (size_t)-1` or `end > length` resolves to
`length`; fails when `start > length` or `start > end`; the result is a
fresh list (via `mvn_list_init`) holding a copy of `[start, end)`. -/
def mvn_list_slice (l : mvn_list_t) (start endIdx : Nat) : Option mvn_list_t :=
  let e := if endIdx = SIZE_MAX ∨ l.length < endIdx then l.length else endIdx
  if l.length < start ∨ e < start then none
  else
    let slice_length := e - start
    match mvn_list_init l.item_size
        (if 0 < slice_length then slice_length else MVN_LIST_DEFAULT_CAPACITY) with
    | none => none
    | some r => some { r with data := (l.data.drop start).take slice_length }

/-- `mvn_list_concat`: fails on mismatched `item_size`; otherwise a fresh
list holding `list1` followed by `list2`. -/
def mvn_list_concat (l1 l2 : mvn_list_t) : Option mvn_list_t :=
  if l1.item_size ≠ l2.item_size then none
  else
    let total := l1.length + l2.length
    match mvn_list_init l1.item_size
        (if 0 < total then total else MVN_LIST_DEFAULT_CAPACITY) with
    | none => none
    | some r => some { r with data := l1.data ++ l2.data }

/-- `mvn_list_clone`: a fresh list with the original's capacity and a copy
of its `length` elements. -/
def mvn_list_clone (l : mvn_list_t) : Option mvn_list_t :=
  match mvn_list_init l.item_size l.capacity with
  | none => none
  | some r => some { r with data := l.data }

/-- `mvn_list_clear`: drops all elements, capacity untouched. -/
def mvn_list_clear (l : mvn_list_t) : mvn_list_t :=
  { l with data := [] }

/-- `mvn_list_trim`: an empty list resets to the default capacity,
otherwise excess capacity is trimmed to `length`. -/
def mvn_list_trim (l : mvn_list_t) : mvn_list_t :=
  if l.length = 0 then mvn_list_resize l MVN_LIST_DEFAULT_CAPACITY
  else if l.length < l.capacity then mvn_list_resize l l.length
  else l

/-! ## Hash map (`mvn-hashmap.c`) -/

/-- Default initial bucket count (`MVN_HMAP_DEFAULT_CAPACITY`). -/
def MVN_HMAP_DEFAULT_CAPACITY : Nat := 16

/-- Growth factor when resizing (`MVN_HMAP_GROWTH_FACTOR`). -/
def MVN_HMAP_GROWTH_FACTOR : Nat := 2

/-- `hash_string`: FNV-1a over the key's bytes with a `size_t` accumulator
of word size `w`; every `size_t` store wraps modulo `2 ^ w`.  A C string
is represented by the list of its bytes before the null terminator. -/
def hash_string (w : Nat) (key : List Nat) : Nat :=
  key.foldl (fun h b => (h ^^^ b) % 2 ^ w * 16777619 % 2 ^ w) (2166136261 % 2 ^ w)

/-- The hash at the LP64 word size used by the map operations. -/
def hashW (key : List Nat) : Nat := hash_string 64 key

/-- A collision-chain entry: owned key string and value blob.  The C
`next` pointer is the tail of the chain list. -/
structure mvn_hmap_entry_t where
  key : List Nat
  value : List Nat
deriving DecidableEq

/-- The hash map.  `buckets` is the bucket array, each bucket the list of
its chain's entries from head to tail; the C `bucket_count` field is
`buckets.length`. -/
structure mvn_hmap_t where
  buckets : List (List mvn_hmap_entry_t)
  length : Nat
  item_size : Nat
deriving DecidableEq

/-- The C `bucket_count` field. -/
def mvn_hmap_t.bucket_count (h : mvn_hmap_t) : Nat := h.buckets.length

/-- All live entries, in bucket-index-then-chain order. -/
def mvn_hmap_t.entries (h : mvn_hmap_t) : List mvn_hmap_entry_t := h.buckets.flatten

/-- `mvn_hmap_init`: fails on `item_size == 0` or a bucket array whose
byte size would overflow `size_t`; zero capacity takes the default; all
chains start empty. -/
def mvn_hmap_init (item_size initial_capacity : Nat) : Option mvn_hmap_t :=
  if item_size = 0 then none
  else
    let cap := if initial_capacity = 0 then MVN_HMAP_DEFAULT_CAPACITY else initial_capacity
    if SIZE_MAX / 8 < cap then none
    else some { buckets := List.replicate cap [], length := 0, item_size := item_size }

/-- One step of the rehash loop: prepend an entry to the head of its
bucket under the new bucket count. -/
def rehash_insert (bs : List (List mvn_hmap_entry_t)) (e : mvn_hmap_entry_t) :
    List (List mvn_hmap_entry_t) :=
  let idx := hashW e.key % bs.length
  bs.set idx (e :: bs.getD idx [])

/-- `resize_hashmap`: fails when the new capacity is below `length` or its
bucket array would overflow; otherwise every entry node is transferred
into a fresh bucket array, walking old buckets in order and prepending. -/
def resize_hashmap (h : mvn_hmap_t) (new_capacity : Nat) : Option mvn_hmap_t :=
  if new_capacity < h.length then none
  else if SIZE_MAX / 8 < new_capacity then none
  else some { h with buckets := h.entries.foldl rehash_insert (List.replicate new_capacity []) }

/-- The chain scan of `mvn_hmap_get` / `mvn_hmap_set`: first entry whose
key compares equal (`strcmp == 0`). -/
def find_entry (key : List Nat) : List mvn_hmap_entry_t → Option mvn_hmap_entry_t
  | [] => none
  | e :: rest => if e.key = key then some e else find_entry key rest

/-- The in-place update of `mvn_hmap_set`: overwrite the value bytes of
the first entry matching `key`, leaving the chain structure unchanged. -/
def update_chain (key value : List Nat) : List mvn_hmap_entry_t → List mvn_hmap_entry_t
  | [] => []
  | e :: rest =>
    if e.key = key then { e with value := value } :: rest
    else e :: update_chain key value rest

/-- The chain scan of `mvn_hmap_delete`: unlink the first entry matching
`key`, or report that no entry matched. -/
def remove_entry (key : List Nat) : List mvn_hmap_entry_t → Option (List mvn_hmap_entry_t)
  | [] => none
  | e :: rest =>
    if e.key = key then some rest
    else match remove_entry key rest with
      | none => none
      | some rest2 => some (e :: rest2)

/-- The second half of `mvn_hmap_set`, after the optional resize: scan the
key's bucket and either overwrite the first matching entry's value bytes
in place, or prepend a fresh entry to the chain head and increment
`length`. -/
def mvn_hmap_put (h1 : mvn_hmap_t) (key value : List Nat) : mvn_hmap_t :=
  let index := hashW key % h1.bucket_count
  let chain := h1.buckets.getD index []
  match find_entry key chain with
  | some _ =>
    { h1 with buckets := h1.buckets.set index (update_chain key value chain) }
  | none =>
    { h1 with buckets := h1.buckets.set index (⟨key, value⟩ :: chain),
              length := h1.length + 1 }

/-- `mvn_hmap_set`: resize to double the bucket count first when the
pre-call `length` exceeds `bucket_count * 0.75` (`none` on resize
failure, the C `false`); then insert or update via `mvn_hmap_put`. -/
def mvn_hmap_set (h : mvn_hmap_t) (key value : List Nat) : Option mvn_hmap_t :=
  let grown : Option mvn_hmap_t :=
    if h.bucket_count * 3 / 4 < h.length then
      resize_hashmap h (h.bucket_count * MVN_HMAP_GROWTH_FACTOR)
    else some h
  match grown with
  | none => none
  | some h1 => some (mvn_hmap_put h1 key value)

/-- `mvn_hmap_get`: scan the key's bucket, returning the value blob of the
first matching entry. -/
def mvn_hmap_get (h : mvn_hmap_t) (key : List Nat) : Option (List Nat) :=
  (find_entry key (h.buckets.getD (hashW key % h.bucket_count) [])).map mvn_hmap_entry_t.value

/-- `mvn_hmap_delete`: unlink and free the first matching entry of the
key's bucket and decrement `length`; `(map, false)` untouched when absent. -/
def mvn_hmap_delete (h : mvn_hmap_t) (key : List Nat) : mvn_hmap_t × Bool :=
  let index := hashW key % h.bucket_count
  match remove_entry key (h.buckets.getD index []) with
  | none => (h, false)
  | some chain2 =>
    ({ h with buckets := h.buckets.set index chain2, length := h.length - 1 }, true)

/-- Repeated `mvn_hmap_set`, inserting each key of `ks` with the value
`val k`, stopping at the first failure (the driver loop of the load-factor
test scenario). -/
def mvn_hmap_set_list (h : mvn_hmap_t) (val : List Nat → List Nat) :
    List (List Nat) → Option mvn_hmap_t
  | [] => some h
  | k :: ks =>
    match mvn_hmap_set h k (val k) with
    | none => none
    | some h2 => mvn_hmap_set_list h2 val ks

/-- The data-model invariant of §3: a positive bucket count, every entry
chained under the bucket its key hashes to, no two live entries under the
same key, and `length` equal to the total entry count. -/
def mvn_hmap_wf (h : mvn_hmap_t) : Prop :=
  0 < h.bucket_count ∧
  (∀ i < h.bucket_count, ∀ e ∈ h.buckets.getD i [], hashW e.key % h.bucket_count = i) ∧
  (h.entries.map mvn_hmap_entry_t.key).Nodup ∧
  h.length = h.entries.length

instance (h : mvn_hmap_t) : Decidable (mvn_hmap_wf h) := by
  unfold mvn_hmap_wf
  infer_instance

/-! ## Basic facts about the list operations -/

theorem mvn_list_resize_data (l : mvn_list_t) (c : Nat) :
    (mvn_list_resize l c).data = l.data := by
  rw [mvn_list_resize]
  split <;> split <;> rfl

theorem mvn_list_resize_length (l : mvn_list_t) (c : Nat) :
    (mvn_list_resize l c).length = l.length := by
  simp [mvn_list_t.length, mvn_list_resize_data]

theorem mvn_list_resize_item_size (l : mvn_list_t) (c : Nat) :
    (mvn_list_resize l c).item_size = l.item_size := by
  rw [mvn_list_resize]
  split <;> split <;> rfl

theorem mvn_list_resize_capacity (l : mvn_list_t) (c : Nat) :
    (mvn_list_resize l c).capacity =
      if max l.length c = l.capacity then l.capacity
      else if 0 < max l.length c ∧ max l.length c < MVN_LIST_DEFAULT_CAPACITY then
        MVN_LIST_DEFAULT_CAPACITY
      else max l.length c := by
  have hmax : (if c < l.length then l.length else c) = max l.length c := by
    split <;> omega
  rw [mvn_list_resize]
  simp only [hmax]
  split <;> rfl

theorem mvn_list_resize_capacity_ge (l : mvn_list_t) (c : Nat) :
    l.length ≤ (mvn_list_resize l c).capacity ∧ c ≤ (mvn_list_resize l c).capacity := by
  rw [mvn_list_resize_capacity]
  simp only [MVN_LIST_DEFAULT_CAPACITY]
  split_ifs <;> omega

theorem mvn_list_ensure_data (l : mvn_list_t) :
    (mvn_list_ensure_capacity l).data = l.data := by
  rw [mvn_list_ensure_capacity]
  split
  · exact mvn_list_resize_data l _
  · rfl

theorem mvn_list_ensure_item_size (l : mvn_list_t) :
    (mvn_list_ensure_capacity l).item_size = l.item_size := by
  rw [mvn_list_ensure_capacity]
  split
  · exact mvn_list_resize_item_size l _
  · rfl

theorem mvn_list_ensure_capacity_gt (l : mvn_list_t) (hl : l.length ≤ l.capacity) :
    l.length < (mvn_list_ensure_capacity l).capacity := by
  rw [mvn_list_ensure_capacity]
  split
  · rw [mvn_list_resize_capacity]
    simp only [MVN_LIST_DEFAULT_CAPACITY, MVN_LIST_GROWTH_FACTOR]
    split_ifs <;> omega
  · omega

/-! ## Claim C10: a zero-count batch push is rejected -/

/-- C10: `mvn_list_push_batch` called with `count == 0` returns the
failure sentinel (`none`, the C `false`) for every list and item pointer,
leaving the list unchanged (the embedding is pure, so no new list state is
produced at all); a zero-count batch push is rejected, not a no-op. -/
theorem mvn_list_push_batch_zero_count_rejected (l : mvn_list_t) (items : List (List Nat)) :
    mvn_list_push_batch l items 0 = none := by
  rw [mvn_list_push_batch]
  simp

/-! ## Claim C2: `mvn_list_resize` lower bounds -/

/-- C2 (counterexample): a list created with capacity 5 (so length 0) that
is resized with requested capacity 5 keeps capacity 5, even though the
request — already at least the length — is below the default minimum 8.
The equal-capacity early return bypasses the minimum snap, refuting the
claim that such requests always end at the default minimum. -/
theorem mvn_list_resize_min_snap_cex :
    mvn_list_init 1 5 = some ⟨1, 5, []⟩ ∧
    mvn_list_t.length ⟨1, 5, []⟩ ≤ 5 ∧
    (5 : Nat) < MVN_LIST_DEFAULT_CAPACITY ∧
    (mvn_list_resize ⟨1, 5, []⟩ 5).capacity = 5 ∧
    (mvn_list_resize ⟨1, 5, []⟩ 5).capacity ≠ MVN_LIST_DEFAULT_CAPACITY := by
  constructor
  · rfl
  · refine ⟨by decide, by decide, rfl, by decide⟩

/-- C2 (amended): `mvn_list_resize` never leaves the capacity below the
current length, and the resulting capacity is fully characterized: the
request is first raised to `length`; if the raised request equals the
current capacity the list is returned unchanged (even when that capacity
is below the default minimum 8), otherwise a positive raised request
below 8 snaps up to 8 (a raised request of 0, possible only for an empty
list, yields capacity 0).  Length and item size are untouched. -/
theorem mvn_list_resize_spec (l : mvn_list_t) (c : Nat) :
    l.length ≤ (mvn_list_resize l c).capacity ∧
    (mvn_list_resize l c).length = l.length ∧
    (mvn_list_resize l c).item_size = l.item_size ∧
    (mvn_list_resize l c).capacity =
      (if max l.length c = l.capacity then l.capacity
       else if 0 < max l.length c ∧ max l.length c < MVN_LIST_DEFAULT_CAPACITY then
         MVN_LIST_DEFAULT_CAPACITY
       else max l.length c) := by
  exact ⟨(mvn_list_resize_capacity_ge l c).1, mvn_list_resize_length l c,
    mvn_list_resize_item_size l c, mvn_list_resize_capacity l c⟩

theorem mvn_list_init_pos (isz cap : Nat) (h : 0 < isz) :
    mvn_list_init isz cap =
      some { item_size := isz,
             capacity := if cap = 0 then MVN_LIST_DEFAULT_CAPACITY else cap,
             data := [] } := by
  rw [mvn_list_init, if_neg (by omega)]

theorem mvn_list_slice_none_of_item_size_zero (l : mvn_list_t) (s e : Nat)
    (h : l.item_size = 0) : mvn_list_slice l s e = none := by
  simp only [mvn_list_slice, mvn_list_init, if_pos h]
  split <;> split <;> rfl

theorem mvn_list_slice_none_of_bad_range (l : mvn_list_t) (s e e2 : Nat)
    (he2 : e2 = if e = SIZE_MAX ∨ l.length < e then l.length else e)
    (h : l.length < s ∨ e2 < s) : mvn_list_slice l s e = none := by
  rw [mvn_list_slice, ← he2, if_pos h]

theorem mvn_list_slice_some (l : mvn_list_t) (s e e2 : Nat) (hsz : 0 < l.item_size)
    (he2 : e2 = if e = SIZE_MAX ∨ l.length < e then l.length else e)
    (hs : s ≤ l.length) (hse : s ≤ e2) :
    mvn_list_slice l s e =
      some { item_size := l.item_size,
             capacity := if 0 < e2 - s then e2 - s else MVN_LIST_DEFAULT_CAPACITY,
             data := (l.data.drop s).take (e2 - s) } := by
  simp only [mvn_list_slice]
  rw [← he2, if_neg (by omega), mvn_list_init_pos _ _ hsz]
  have hcap : (if (if 0 < e2 - s then e2 - s else MVN_LIST_DEFAULT_CAPACITY) = 0
      then MVN_LIST_DEFAULT_CAPACITY
      else if 0 < e2 - s then e2 - s else MVN_LIST_DEFAULT_CAPACITY)
      = (if 0 < e2 - s then e2 - s else MVN_LIST_DEFAULT_CAPACITY) := by
    simp only [MVN_LIST_DEFAULT_CAPACITY]
    split_ifs <;> omega
  rw [hcap]

/-! ## Claim C7: `mvn_list_slice` -/

/-- C7: with sentinel resolution applied (`end == (size_t)-1` or
`end > length` replaced by `length`, written here as the hypothesis on
`e2`), `mvn_list_slice` fails exactly when `start > length` or
`start > end`, and otherwise produces a new list of length `end - start`
whose element at index `i` equals the source's element at `start + i`.
The embedding is pure, so the source list is left unchanged by
construction. -/
theorem mvn_list_slice_spec (l : mvn_list_t) (s e e2 : Nat) (hsz : 0 < l.item_size)
    (he2 : e2 = if e = SIZE_MAX ∨ l.length < e then l.length else e) :
    (l.length < s ∨ e2 < s → mvn_list_slice l s e = none) ∧
    (s ≤ l.length → s ≤ e2 →
      ∃ r, mvn_list_slice l s e = some r ∧ r.length = e2 - s ∧
        r.item_size = l.item_size ∧
        ∀ i < e2 - s, mvn_list_get r i = mvn_list_get l (s + i)) := by
  have he2le : e2 ≤ l.length := by rw [he2]; split <;> omega
  constructor
  · intro hfail
    exact mvn_list_slice_none_of_bad_range l s e e2 he2 hfail
  · intro hs hse
    refine ⟨_, mvn_list_slice_some l s e e2 hsz he2 hs hse, ?_, rfl, ?_⟩
    · show ((l.data.drop s).take (e2 - s)).length = e2 - s
      simp only [List.length_take, List.length_drop]
      have : l.data.length = l.length := rfl
      omega
    · intro i hi
      show ((l.data.drop s).take (e2 - s)).get? i = l.data.get? (s + i)
      simp only [List.get?_eq_getElem?]
      rw [List.getElem?_take_of_lt hi, List.getElem?_drop]

/-! ## Claim C8: `mvn_list_concat` -/

/-- C8: `mvn_list_concat` fails exactly when the two inputs' `item_size`
differ, and otherwise produces a new list of length `len(a) + len(b)`
whose first `len(a)` elements equal `a` element-wise and whose remaining
elements equal `b` element-wise.  The embedding is pure, so the inputs
are left unchanged by construction. -/
theorem mvn_list_concat_spec (l1 l2 : mvn_list_t) (hsz : 0 < l1.item_size) :
    (l1.item_size ≠ l2.item_size → mvn_list_concat l1 l2 = none) ∧
    (l1.item_size = l2.item_size →
      ∃ r, mvn_list_concat l1 l2 = some r ∧
        r.length = l1.length + l2.length ∧ r.item_size = l1.item_size ∧
        (∀ i < l1.length, mvn_list_get r i = mvn_list_get l1 i) ∧
        (∀ i < l2.length, mvn_list_get r (l1.length + i) = mvn_list_get l2 i)) := by
  constructor
  · intro hne
    rw [mvn_list_concat, if_pos hne]
  · intro heq
    simp only [mvn_list_concat]
    rw [if_neg (by simp [heq]), mvn_list_init_pos _ _ hsz]
    refine ⟨_, rfl, ?_, rfl, ?_, ?_⟩
    · show (l1.data ++ l2.data).length = l1.length + l2.length
      simp [List.length_append]
      rfl
    · intro i hi
      show (l1.data ++ l2.data).get? i = l1.data.get? i
      simp only [List.get?_eq_getElem?]
      exact List.getElem?_append_left hi
    · intro i hi
      show (l1.data ++ l2.data).get? (l1.length + i) = l2.data.get? i
      simp only [List.get?_eq_getElem?]
      have : mvn_list_t.length l1 = l1.data.length := rfl
      rw [List.getElem?_append_right (by omega)]
      congr 1
      omega

/-- C7 witness: slicing `[10,20,30,40,50]` with `start = 1`, `end = 4`. -/
theorem mvn_list_slice_spec_witness :
    ∃ r, mvn_list_slice ⟨4, 8, [[10], [20], [30], [40], [50]]⟩ 1 4 = some r ∧
      r.length = 3 ∧ r.item_size = 4 ∧
      ∀ i < 3, mvn_list_get r i = mvn_list_get ⟨4, 8, [[10], [20], [30], [40], [50]]⟩ (1 + i) :=
  (mvn_list_slice_spec ⟨4, 8, [[10], [20], [30], [40], [50]]⟩ 1 4 4 (by decide)
    (by decide)).2 (by decide) (by decide)

/-- C8 witness: concatenating `[1,2]` and `[3,4]`. -/
theorem mvn_list_concat_spec_witness :
    ∃ r, mvn_list_concat ⟨4, 8, [[1], [2]]⟩ ⟨4, 8, [[3], [4]]⟩ = some r ∧
      r.length = 4 ∧ r.item_size = 4 ∧
      (∀ i < 2, mvn_list_get r i = mvn_list_get ⟨4, 8, [[1], [2]]⟩ i) ∧
      (∀ i < 2, mvn_list_get r (2 + i) = mvn_list_get ⟨4, 8, [[3], [4]]⟩ i) :=
  (mvn_list_concat_spec ⟨4, 8, [[1], [2]]⟩ ⟨4, 8, [[3], [4]]⟩ (by decide)).2 rfl

/-! ## Claim C9: the list operations preserve the data-model invariant -/

/-- C9: every list operation preserves `0 ≤ length ≤ capacity` (the lower
bound is inherent to `Nat`) and never changes `item_size`: `init`
establishes the invariant, and `push`, `push_batch`, `pop`, `unshift`,
`shift`, `set`, `resize`, `clear` and `trim` preserve it, while the fresh
lists produced by `slice` and `clone` satisfy it as well. -/
theorem mvn_list_ops_preserve_invariants
    (l : mvn_list_t) (item : List Nat) (items : List (List Nat))
    (idx count s e c isz c0 : Nat)
    (hl : l.length ≤ l.capacity) :
    (∀ r, mvn_list_init isz c0 = some r → r.length ≤ r.capacity ∧ r.item_size = isz) ∧
    ((mvn_list_push l item).length ≤ (mvn_list_push l item).capacity ∧
      (mvn_list_push l item).item_size = l.item_size) ∧
    (∀ r, mvn_list_push_batch l items count = some r →
      r.length ≤ r.capacity ∧ r.item_size = l.item_size) ∧
    (∀ x r, mvn_list_pop l = some (x, r) →
      r.length ≤ r.capacity ∧ r.item_size = l.item_size) ∧
    ((mvn_list_unshift l item).length ≤ (mvn_list_unshift l item).capacity ∧
      (mvn_list_unshift l item).item_size = l.item_size) ∧
    (∀ x r, mvn_list_shift l = some (x, r) →
      r.length ≤ r.capacity ∧ r.item_size = l.item_size) ∧
    (∀ r, mvn_list_set l idx item = some r →
      r.length ≤ r.capacity ∧ r.item_size = l.item_size) ∧
    (∀ r, mvn_list_slice l s e = some r →
      r.length ≤ r.capacity ∧ r.item_size = l.item_size) ∧
    ((mvn_list_resize l c).length ≤ (mvn_list_resize l c).capacity ∧
      (mvn_list_resize l c).item_size = l.item_size) ∧
    ((mvn_list_clear l).length ≤ (mvn_list_clear l).capacity ∧
      (mvn_list_clear l).item_size = l.item_size) ∧
    ((mvn_list_trim l).length ≤ (mvn_list_trim l).capacity ∧
      (mvn_list_trim l).item_size = l.item_size) ∧
    (∀ r, mvn_list_clone l = some r →
      r.length ≤ r.capacity ∧ r.item_size = l.item_size) := by
  have hlen : l.length = l.data.length := rfl
  refine ⟨?_, ?_, ?_, ?_, ?_, ?_, ?_, ?_, ?_, ?_, ?_, ?_⟩
  · -- init
    intro r hr
    rw [mvn_list_init] at hr
    split at hr
    · exact absurd hr (by simp)
    · simp only [Option.some.injEq] at hr
      subst hr
      exact ⟨by simp [mvn_list_t.length], rfl⟩
  · -- push
    have hgt := mvn_list_ensure_capacity_gt l hl
    constructor
    · show ((mvn_list_ensure_capacity l).data ++ [item]).length ≤ _
      rw [List.length_append, mvn_list_ensure_data]
      show l.length + 1 ≤ (mvn_list_ensure_capacity l).capacity
      omega
    · exact mvn_list_ensure_item_size l
  · -- push_batch
    intro r hr
    rw [mvn_list_push_batch] at hr
    split at hr
    · exact absurd hr (by simp)
    · simp only [Option.some.injEq] at hr
      subst hr
      constructor
      · show ((if l.capacity < l.length + count then
            mvn_list_resize l ((l.length + count) * MVN_LIST_GROWTH_FACTOR)
          else l).data ++ items.take count).length ≤ _
        rw [List.length_append, List.length_take]
        split
        · rw [mvn_list_resize_data]
          have := (mvn_list_resize_capacity_ge l
            ((l.length + count) * MVN_LIST_GROWTH_FACTOR)).2
          simp only [MVN_LIST_GROWTH_FACTOR] at this ⊢
          omega
        · dsimp only
          omega
      · show (if l.capacity < l.length + count then
            mvn_list_resize l ((l.length + count) * MVN_LIST_GROWTH_FACTOR)
          else l).item_size = l.item_size
        split
        · exact mvn_list_resize_item_size l _
        · rfl
  · -- pop
    intro x r hr
    rw [mvn_list_pop] at hr
    split at hr
    · exact absurd hr (by simp)
    · simp only [Option.some.injEq, Prod.mk.injEq] at hr
      rw [← hr.2]
      refine ⟨?_, rfl⟩
      show l.data.dropLast.length ≤ l.capacity
      rw [List.length_dropLast]
      omega
  · -- unshift
    have hgt := mvn_list_ensure_capacity_gt l hl
    constructor
    · show (item :: (mvn_list_ensure_capacity l).data).length ≤ _
      rw [List.length_cons, mvn_list_ensure_data]
      show l.length + 1 ≤ (mvn_list_ensure_capacity l).capacity
      omega
    · exact mvn_list_ensure_item_size l
  · -- shift
    intro x r hr
    rw [mvn_list_shift] at hr
    split at hr
    · exact absurd hr (by simp)
    · rename_i hd tl heq
      simp only [Option.some.injEq, Prod.mk.injEq] at hr
      rw [← hr.2]
      refine ⟨?_, rfl⟩
      show tl.length ≤ l.capacity
      have : l.data.length = tl.length + 1 := by rw [heq]; rfl
      omega
  · -- set
    intro r hr
    rw [mvn_list_set] at hr
    split at hr
    · exact absurd hr (by simp)
    · simp only [Option.some.injEq] at hr
      subst hr
      refine ⟨?_, rfl⟩
      show (l.data.set idx item).length ≤ l.capacity
      rw [List.length_set]
      omega
  · -- slice
    intro r hr
    rcases Nat.eq_zero_or_pos l.item_size with hsz | hsz
    · rw [mvn_list_slice_none_of_item_size_zero l s e hsz] at hr
      exact absurd hr (by simp)
    · by_cases hfail : l.length < s ∨ (if e = SIZE_MAX ∨ l.length < e then l.length else e) < s
      · rw [mvn_list_slice_none_of_bad_range l s e _ rfl hfail] at hr
        exact absurd hr (by simp)
      · rw [mvn_list_slice_some l s e _ hsz rfl (by omega) (by omega)] at hr
        simp only [Option.some.injEq] at hr
        subst hr
        refine ⟨?_, rfl⟩
        show ((l.data.drop s).take _).length ≤ _
        rw [List.length_take, List.length_drop]
        dsimp only
        simp only [MVN_LIST_DEFAULT_CAPACITY]
        split_ifs <;> omega
  · -- resize
    exact ⟨by rw [mvn_list_resize_length]; exact (mvn_list_resize_capacity_ge l c).1,
      mvn_list_resize_item_size l c⟩
  · -- clear
    exact ⟨by simp [mvn_list_clear, mvn_list_t.length], rfl⟩
  · -- trim
    rw [mvn_list_trim]
    split
    · exact ⟨by rw [mvn_list_resize_length]; exact (mvn_list_resize_capacity_ge l _).1,
        mvn_list_resize_item_size l _⟩
    · split
      · exact ⟨by rw [mvn_list_resize_length]; exact (mvn_list_resize_capacity_ge l _).1,
          mvn_list_resize_item_size l _⟩
      · exact ⟨hl, rfl⟩
  · -- clone
    intro r hr
    rcases Nat.eq_zero_or_pos l.item_size with hsz | hsz
    · rw [mvn_list_clone, mvn_list_init, if_pos hsz] at hr
      exact absurd hr (by simp)
    · rw [mvn_list_clone, mvn_list_init_pos _ _ hsz] at hr
      simp only [Option.some.injEq] at hr
      subst hr
      refine ⟨?_, rfl⟩
      show l.data.length ≤ _
      dsimp only
      simp only [MVN_LIST_DEFAULT_CAPACITY]
      split_ifs <;> omega

/-- C9 witness: the push conjunct applied to a concrete one-element list. -/
theorem mvn_list_ops_preserve_invariants_witness :
    (mvn_list_push ⟨1, 8, [[1]]⟩ [2]).length ≤ (mvn_list_push ⟨1, 8, [[1]]⟩ [2]).capacity ∧
    (mvn_list_push ⟨1, 8, [[1]]⟩ [2]).item_size = 1 :=
  (mvn_list_ops_preserve_invariants ⟨1, 8, [[1]]⟩ [2] [[3]] 0 1 0 1 4 1 0 (by decide)).2.1

/-! ## Claim C6: the key hash is FNV-1a -/

/-- FNV-1a as the spec words it: the accumulator starts at the offset
basis `2166136261`; for each byte of the key in order it is XORed with the
byte and then multiplied by the prime `16777619`, wrapping modulo `2 ^ w`
for word size `w`. -/
def fnv1a_spec (w : Nat) (key : List Nat) : Nat :=
  key.foldl (fun acc b => (acc ^^^ b) * 16777619 % 2 ^ w) 2166136261

theorem hash_string_fold_eq (w : Nat) (hw : 8 ≤ w) (key : List Nat) :
    ∀ acc, acc < 2 ^ w → (∀ b ∈ key, b < 256) →
      key.foldl (fun h b => (h ^^^ b) % 2 ^ w * 16777619 % 2 ^ w) acc =
        key.foldl (fun acc b => (acc ^^^ b) * 16777619 % 2 ^ w) acc := by
  induction key with
  | nil =>
    intro acc _ _
    simp only [List.foldl_nil]
  | cons b rest ih =>
    intro acc hacc hbytes
    have hb : b < 2 ^ w := by
      calc b < 256 := hbytes b (by simp)
        _ = 2 ^ 8 := by norm_num
        _ ≤ 2 ^ w := Nat.pow_le_pow_right (by norm_num) hw
    have hxor : (acc ^^^ b) % 2 ^ w = acc ^^^ b :=
      Nat.mod_eq_of_lt (Nat.xor_lt_two_pow hacc hb)
    simp only [List.foldl_cons, hxor]
    exact ih _ (Nat.mod_lt _ (Nat.pos_pow_of_pos w (by norm_num)))
      (fun x hx => hbytes x (by simp [hx]))

/-- C6: for every word size `w` of at least 32 bits (the offset basis is a
32-bit constant, so it is stored exactly) and every key made of C-string
bytes (each below 256, up to the null terminator), the code's `hash_string`
computes exactly the FNV-1a hash described by the spec: offset basis
`2166136261`, per byte XOR then multiply by the prime `16777619`, with
wraparound modulo `2 ^ w`. -/
theorem hash_string_is_fnv1a (w : Nat) (key : List Nat) (hw : 32 ≤ w)
    (hbytes : ∀ b ∈ key, b < 256) :
    hash_string w key = fnv1a_spec w key := by
  have hbasis : 2166136261 % 2 ^ w = 2166136261 := by
    apply Nat.mod_eq_of_lt
    calc (2166136261 : Nat) < 2 ^ 32 := by norm_num
      _ ≤ 2 ^ w := Nat.pow_le_pow_right (by norm_num) hw
  rw [hash_string, fnv1a_spec, hbasis]
  exact hash_string_fold_eq w (by omega) key 2166136261
    (by rw [← hbasis]; exact Nat.mod_lt _ (Nat.pos_pow_of_pos w (by norm_num))) hbytes

/-- C6 witness: the 64-bit hash of the one-byte key `"a"` (byte 97). -/
theorem hash_string_is_fnv1a_witness :
    32 ≤ 64 ∧ hash_string 64 [97] = fnv1a_spec 64 [97] :=
  ⟨by decide, hash_string_is_fnv1a 64 [97] (by decide) (by decide)⟩

/-! ## Chain-level lemmas -/

theorem find_entry_eq_none (k : List Nat) (c : List mvn_hmap_entry_t) :
    find_entry k c = none ↔ ∀ e ∈ c, e.key ≠ k := by
  induction c with
  | nil => simp [find_entry]
  | cons e rest ih =>
    rw [find_entry]
    split
    · simp only [reduceCtorEq, false_iff]
      push_neg
      exact ⟨e, by simp, by assumption⟩
    · simp only [List.mem_cons, ih]
      constructor
      · rintro hall x (rfl | hx)
        · assumption
        · exact hall x hx
      · intro hall x hx
        exact hall x (Or.inr hx)

theorem find_entry_eq_some (k : List Nat) (c : List mvn_hmap_entry_t)
    (e : mvn_hmap_entry_t) (hfind : find_entry k c = some e) :
    e ∈ c ∧ e.key = k := by
  induction c with
  | nil => simp [find_entry] at hfind
  | cons x rest ih =>
    rw [find_entry] at hfind
    split at hfind
    · simp only [Option.some.injEq] at hfind
      subst hfind
      exact ⟨by simp, by assumption⟩
    · obtain ⟨hmem, hkey⟩ := ih hfind
      exact ⟨by simp [hmem], hkey⟩

theorem find_entry_isSome_of_mem (k : List Nat) (c : List mvn_hmap_entry_t)
    (e : mvn_hmap_entry_t) (hmem : e ∈ c) (hkey : e.key = k) :
    ∃ e2, find_entry k c = some e2 := by
  induction c with
  | nil => simp at hmem
  | cons x rest ih =>
    rw [find_entry]
    split
    · exact ⟨x, rfl⟩
    · rcases List.mem_cons.1 hmem with rfl | hmem2
      · exact absurd hkey (by assumption)
      · exact ih hmem2

theorem update_chain_map_key (k v : List Nat) (c : List mvn_hmap_entry_t) :
    (update_chain k v c).map mvn_hmap_entry_t.key = c.map mvn_hmap_entry_t.key := by
  induction c with
  | nil => rfl
  | cons x rest ih =>
    rw [update_chain]
    split
    · simp
    · simp [ih]

theorem update_chain_length (k v : List Nat) (c : List mvn_hmap_entry_t) :
    (update_chain k v c).length = c.length := by
  have := congrArg List.length (update_chain_map_key k v c)
  simpa using this

theorem find_update_self (k v : List Nat) (c : List mvn_hmap_entry_t)
    (e : mvn_hmap_entry_t) (hfind : find_entry k c = some e) :
    find_entry k (update_chain k v c) = some ⟨k, v⟩ := by
  induction c with
  | nil => simp [find_entry] at hfind
  | cons x rest ih =>
    rw [find_entry] at hfind
    rw [update_chain]
    split
    · rename_i hx
      rw [find_entry, if_pos hx]
      rw [if_pos hx] at hfind
      simp [hx]
    · rename_i hx
      rw [find_entry, if_neg hx]
      rw [if_neg hx] at hfind
      exact ih hfind

theorem find_update_other (k v k2 : List Nat) (c : List mvn_hmap_entry_t)
    (hne : k2 ≠ k) :
    find_entry k2 (update_chain k v c) = find_entry k2 c := by
  induction c with
  | nil => rfl
  | cons x rest ih =>
    rw [update_chain]
    split
    · rename_i hx
      rw [find_entry, find_entry]
      have : ¬x.key = k2 := by rw [hx]; exact fun hk => hne hk.symm
      rw [if_neg (by simpa using this), if_neg this]
    · rw [find_entry, find_entry, ih]

theorem mem_update_chain (k v : List Nat) (c : List mvn_hmap_entry_t)
    (e2 : mvn_hmap_entry_t) (hmem : e2 ∈ update_chain k v c) :
    ∃ e0 ∈ c, e2.key = e0.key := by
  induction c with
  | nil => simp [update_chain] at hmem
  | cons x rest ih =>
    rw [update_chain] at hmem
    split at hmem
    · rcases List.mem_cons.1 hmem with rfl | hmem2
      · exact ⟨x, by simp, rfl⟩
      · exact ⟨e2, by simp [hmem2], rfl⟩
    · rcases List.mem_cons.1 hmem with rfl | hmem2
      · exact ⟨e2, by simp, rfl⟩
      · obtain ⟨e0, he0, hkey⟩ := ih hmem2
        exact ⟨e0, by simp [he0], hkey⟩

theorem remove_entry_eq_none (k : List Nat) (c : List mvn_hmap_entry_t) :
    remove_entry k c = none ↔ find_entry k c = none := by
  induction c with
  | nil => simp [remove_entry, find_entry]
  | cons x rest ih =>
    rw [remove_entry, find_entry]
    split
    · simp
    · rw [← ih]
      cases remove_entry k rest <;> simp

theorem remove_entry_some_spec (k : List Nat) (c c2 : List mvn_hmap_entry_t)
    (hrem : remove_entry k c = some c2) :
    ∃ pre e post, c = pre ++ e :: post ∧ c2 = pre ++ post ∧ e.key = k ∧
      ∀ x ∈ pre, x.key ≠ k := by
  induction c generalizing c2 with
  | nil => simp [remove_entry] at hrem
  | cons x rest ih =>
    rw [remove_entry] at hrem
    split at hrem
    · simp only [Option.some.injEq] at hrem
      subst hrem
      exact ⟨[], x, rest, by simp, by simp, by assumption, by simp⟩
    · rename_i hx
      revert hrem
      cases hrest : remove_entry k rest with
      | none => intro hrem; simp at hrem
      | some rest2 =>
        intro hrem
        simp only [Option.some.injEq] at hrem
        subst hrem
        obtain ⟨pre, e, post, hc, hc2, hkey, hpre⟩ := ih rest2 hrest
        refine ⟨x :: pre, e, post, by simp [hc], by simp [hc2], hkey, ?_⟩
        intro y hy
        rcases List.mem_cons.1 hy with rfl | hy2
        · exact hx
        · exact hpre y hy2

theorem find_entry_append_left (k : List Nat) (c1 c2 : List mvn_hmap_entry_t)
    (hnone : ∀ e ∈ c1, e.key ≠ k) :
    find_entry k (c1 ++ c2) = find_entry k c2 := by
  induction c1 with
  | nil => rfl
  | cons x rest ih =>
    rw [List.cons_append, find_entry, if_neg (hnone x (by simp))]
    exact ih (fun e he => hnone e (by simp [he]))

theorem find_remove_other (k k2 : List Nat) (c c2 : List mvn_hmap_entry_t)
    (hrem : remove_entry k c = some c2) (hne : k2 ≠ k) :
    find_entry k2 c2 = find_entry k2 c := by
  induction c generalizing c2 with
  | nil => simp [remove_entry] at hrem
  | cons x rest ih =>
    rw [remove_entry] at hrem
    split at hrem
    · simp only [Option.some.injEq] at hrem
      subst hrem
      rename_i hx
      rw [find_entry, if_neg (by rw [hx]; exact fun hk => hne hk.symm)]
    · revert hrem
      cases hrest : remove_entry k rest with
      | none => intro hrem; simp at hrem
      | some rest2 =>
        intro hrem
        simp only [Option.some.injEq] at hrem
        subst hrem
        rw [find_entry, find_entry, ih rest2 hrest]

/-! ## Bucket-array lemmas -/

theorem getD_set_self (bs : List (List mvn_hmap_entry_t)) (i : Nat)
    (c : List mvn_hmap_entry_t) (hi : i < bs.length) :
    (bs.set i c).getD i [] = c := by
  simp [List.getD_eq_getElem?_getD, List.getElem?_set_self (by simpa using hi)]

theorem getD_set_ne (bs : List (List mvn_hmap_entry_t)) (i j : Nat)
    (c : List mvn_hmap_entry_t) (hne : i ≠ j) :
    (bs.set i c).getD j [] = bs.getD j [] := by
  simp [List.getD_eq_getElem?_getD, List.getElem?_set_ne hne]

theorem getD_eq_default_of_le (bs : List (List mvn_hmap_entry_t)) (i : Nat)
    (hi : bs.length ≤ i) : bs.getD i [] = [] := by
  simp [List.getD_eq_getElem?_getD, List.getElem?_eq_none hi]

theorem getD_replicate_nil (c i : Nat) :
    (List.replicate c ([] : List mvn_hmap_entry_t)).getD i [] = [] := by
  rcases Nat.lt_or_ge i c with hi | hi
  · simp [List.getD_eq_getElem?_getD, List.getElem?_replicate_of_lt (by simpa using hi)]
  · exact getD_eq_default_of_le _ _ (by simpa using hi)

theorem flatten_replicate_nil (c : Nat) :
    (List.replicate c ([] : List mvn_hmap_entry_t)).flatten = [] := by
  induction c with
  | zero => rfl
  | succ n ih => simp [List.replicate_succ, ih]

theorem bs_decomp (bs : List (List mvn_hmap_entry_t)) (i : Nat) (hi : i < bs.length) :
    bs = bs.take i ++ bs.getD i [] :: bs.drop (i + 1) := by
  have hget : bs.getD i [] = bs.get ⟨i, hi⟩ := by
    simp [List.getD_eq_getElem?_getD, List.getElem?_eq_getElem hi]
  rw [hget]
  conv_lhs => rw [← List.take_append_drop i bs]
  rw [List.drop_eq_getElem_cons hi]
  rfl

theorem set_decomp (bs : List (List mvn_hmap_entry_t)) (i : Nat)
    (c : List mvn_hmap_entry_t) (hi : i < bs.length) :
    bs.set i c = bs.take i ++ c :: bs.drop (i + 1) :=
  List.set_eq_take_cons_drop c hi

theorem flatten_set (bs : List (List mvn_hmap_entry_t)) (i : Nat)
    (c : List mvn_hmap_entry_t) (hi : i < bs.length) :
    (bs.set i c).flatten =
      (bs.take i).flatten ++ c ++ (bs.drop (i + 1)).flatten := by
  rw [set_decomp bs i c hi]
  simp [List.flatten_append, List.append_assoc]

theorem flatten_decomp (bs : List (List mvn_hmap_entry_t)) (i : Nat) (hi : i < bs.length) :
    bs.flatten =
      (bs.take i).flatten ++ bs.getD i [] ++ (bs.drop (i + 1)).flatten := by
  conv_lhs => rw [bs_decomp bs i hi]
  simp [List.flatten_append, List.append_assoc]

theorem chain_sub_entries (h : mvn_hmap_t) (i : Nat) (e : mvn_hmap_entry_t)
    (hmem : e ∈ h.buckets.getD i []) : e ∈ h.entries := by
  rcases Nat.lt_or_ge i h.buckets.length with hi | hi
  · rw [mvn_hmap_t.entries, flatten_decomp h.buckets i hi]
    exact List.mem_append.2 (Or.inl (List.mem_append.2 (Or.inr hmem)))
  · rw [getD_eq_default_of_le _ _ hi] at hmem
    simp at hmem

/-! ## Well-formedness and the `get` characterization -/

theorem wf_bc_pos (h : mvn_hmap_t) (hwf : mvn_hmap_wf h) : 0 < h.bucket_count := hwf.1

theorem wf_bucket_ok (h : mvn_hmap_t) (hwf : mvn_hmap_wf h) (i : Nat)
    (e : mvn_hmap_entry_t) (hmem : e ∈ h.buckets.getD i []) :
    hashW e.key % h.bucket_count = i := by
  rcases Nat.lt_or_ge i h.bucket_count with hi | hi
  · exact hwf.2.1 i hi e hmem
  · rw [getD_eq_default_of_le _ _ hi] at hmem
    simp at hmem

theorem wf_key_unique (h : mvn_hmap_t) (hwf : mvn_hmap_wf h)
    (a b : mvn_hmap_entry_t) (ha : a ∈ h.entries) (hb : b ∈ h.entries)
    (hkey : a.key = b.key) : a = b :=
  List.inj_on_of_nodup_map hwf.2.2.1 ha hb hkey

theorem mem_entries_iff_mem_chain (h : mvn_hmap_t) (hwf : mvn_hmap_wf h)
    (e : mvn_hmap_entry_t) :
    e ∈ h.entries ↔ e ∈ h.buckets.getD (hashW e.key % h.bucket_count) [] := by
  constructor
  · intro hmem
    obtain ⟨c, hc, hec⟩ := List.mem_flatten.1 hmem
    obtain ⟨i, hi, hci⟩ := List.getElem_of_mem hc
    have hgetD : h.buckets.getD i [] = c := by
      simp [List.getD_eq_getElem?_getD, List.getElem?_eq_getElem hi, hci]
    have := wf_bucket_ok h hwf i e (by rw [hgetD]; exact hec)
    rw [this, hgetD]
    exact hec
  · exact chain_sub_entries h _ e

theorem mvn_hmap_get_some_iff (h : mvn_hmap_t) (hwf : mvn_hmap_wf h)
    (k v : List Nat) :
    mvn_hmap_get h k = some v ↔ (⟨k, v⟩ : mvn_hmap_entry_t) ∈ h.entries := by
  rw [mvn_hmap_get]
  constructor
  · intro hget
    cases hfind : find_entry k (h.buckets.getD (hashW k % h.bucket_count) []) with
    | none => rw [hfind] at hget; simp at hget
    | some e =>
      rw [hfind] at hget
      have hv : e.value = v := by simpa using hget
      obtain ⟨hmem, hkey⟩ := find_entry_eq_some k _ e hfind
      have : e = ⟨k, v⟩ := by
        cases e
        simp_all
      rw [← this]
      exact chain_sub_entries h _ e hmem
  · intro hmem
    have hchain := (mem_entries_iff_mem_chain h hwf ⟨k, v⟩).1 hmem
    obtain ⟨e2, hfind⟩ := find_entry_isSome_of_mem k _ ⟨k, v⟩ hchain rfl
    obtain ⟨hmem2, hkey2⟩ := find_entry_eq_some k _ e2 hfind
    have : e2 = ⟨k, v⟩ :=
      wf_key_unique h hwf e2 ⟨k, v⟩ (chain_sub_entries h _ e2 hmem2) hmem hkey2
    rw [hfind, this]
    rfl

theorem mvn_hmap_get_none_iff (h : mvn_hmap_t) (hwf : mvn_hmap_wf h) (k : List Nat) :
    mvn_hmap_get h k = none ↔ ∀ e ∈ h.entries, e.key ≠ k := by
  rw [mvn_hmap_get]
  constructor
  · intro hget e hmem hkey
    have hchain := (mem_entries_iff_mem_chain h hwf e).1 hmem
    rw [hkey] at hchain
    obtain ⟨e2, hfind⟩ := find_entry_isSome_of_mem k _ e hchain hkey
    rw [hfind] at hget
    simp at hget
  · intro hall
    have hnone : find_entry k (h.buckets.getD (hashW k % h.bucket_count) []) = none :=
      (find_entry_eq_none k _).2 (fun e he => hall e (chain_sub_entries h _ e he))
    rw [hnone]
    rfl

/-! ## Rehash and resize lemmas -/

/-- Bucket correctness with an explicit modulus. -/
def buckets_ok (n : Nat) (bs : List (List mvn_hmap_entry_t)) : Prop :=
  ∀ i, ∀ e ∈ bs.getD i [], hashW e.key % n = i

theorem rehash_insert_length (bs : List (List mvn_hmap_entry_t)) (e : mvn_hmap_entry_t) :
    (rehash_insert bs e).length = bs.length := by
  simp [rehash_insert]

theorem foldl_rehash_length (es : List mvn_hmap_entry_t) :
    ∀ bs, (es.foldl rehash_insert bs).length = bs.length := by
  induction es with
  | nil => intro bs; rfl
  | cons e rest ih =>
    intro bs
    rw [List.foldl_cons, ih, rehash_insert_length]

theorem rehash_insert_ok (bs : List (List mvn_hmap_entry_t)) (e : mvn_hmap_entry_t)
    (h0 : 0 < bs.length) (hok : buckets_ok bs.length bs) :
    buckets_ok bs.length (rehash_insert bs e) := by
  intro j e2 hmem
  rw [rehash_insert] at hmem
  have hidx : hashW e.key % bs.length < bs.length := Nat.mod_lt _ h0
  rcases eq_or_ne (hashW e.key % bs.length) j with heq | hne
  · rw [← heq] at hmem
    rw [getD_set_self _ _ _ hidx] at hmem
    rcases List.mem_cons.1 hmem with rfl | hmem2
    · exact heq
    · rw [← heq]
      exact hok _ e2 hmem2
  · rw [getD_set_ne _ _ _ _ hne] at hmem
    exact hok _ e2 hmem

theorem foldl_rehash_ok (es : List mvn_hmap_entry_t) :
    ∀ bs, 0 < bs.length → buckets_ok bs.length bs →
      buckets_ok bs.length (es.foldl rehash_insert bs) := by
  induction es with
  | nil => intro bs _ hok; exact hok
  | cons e rest ih =>
    intro bs h0 hok
    rw [List.foldl_cons]
    have hlen := rehash_insert_length bs e
    have h0b : 0 < (rehash_insert bs e).length := by rw [hlen]; exact h0
    have hokb : buckets_ok (rehash_insert bs e).length (rehash_insert bs e) := by
      rw [hlen]
      exact rehash_insert_ok bs e h0 hok
    have := ih (rehash_insert bs e) h0b hokb
    rw [hlen] at this
    exact this

theorem rehash_insert_flatten_perm (bs : List (List mvn_hmap_entry_t))
    (e : mvn_hmap_entry_t) (h0 : 0 < bs.length) :
    List.Perm (rehash_insert bs e).flatten (e :: bs.flatten) := by
  have hidx : hashW e.key % bs.length < bs.length := Nat.mod_lt _ h0
  rw [rehash_insert]
  rw [flatten_set _ _ _ hidx]
  conv_rhs => rw [flatten_decomp bs (hashW e.key % bs.length) hidx]
  simp only [List.append_assoc, List.cons_append]
  exact List.perm_middle

theorem foldl_rehash_flatten_perm (es : List mvn_hmap_entry_t) :
    ∀ bs, 0 < bs.length →
      List.Perm (es.foldl rehash_insert bs).flatten (es ++ bs.flatten) := by
  induction es with
  | nil => intro bs _; simp
  | cons e rest ih =>
    intro bs h0
    rw [List.foldl_cons]
    have h0b : 0 < (rehash_insert bs e).length := by
      rw [rehash_insert_length]; exact h0
    have step1 := ih (rehash_insert bs e) h0b
    have step2 : List.Perm (rest ++ (rehash_insert bs e).flatten)
        (rest ++ (e :: bs.flatten)) :=
      List.Perm.append_left rest (rehash_insert_flatten_perm bs e h0)
    have step3 : List.Perm (rest ++ (e :: bs.flatten)) (e :: (rest ++ bs.flatten)) :=
      List.perm_middle
    exact ((step1.trans step2).trans step3)

theorem resize_hashmap_spec (h : mvn_hmap_t) (c : Nat) (h2 : mvn_hmap_t)
    (hr : resize_hashmap h c = some h2) (h0 : 0 < c) :
    h2.bucket_count = c ∧ h2.length = h.length ∧ h2.item_size = h.item_size ∧
    List.Perm h2.entries h.entries := by
  rw [resize_hashmap] at hr
  split at hr
  · simp at hr
  · split at hr
    · simp at hr
    · simp only [Option.some.injEq] at hr
      subst hr
      refine ⟨?_, rfl, rfl, ?_⟩
      · show (h.entries.foldl rehash_insert (List.replicate c [])).length = c
        rw [foldl_rehash_length, List.length_replicate]
      · show List.Perm (h.entries.foldl rehash_insert (List.replicate c [])).flatten h.entries
        have := foldl_rehash_flatten_perm h.entries (List.replicate c [])
          (by rw [List.length_replicate]; exact h0)
        rw [flatten_replicate_nil, List.append_nil] at this
        exact this

theorem resize_hashmap_wf (h : mvn_hmap_t) (c : Nat) (h2 : mvn_hmap_t)
    (hwf : mvn_hmap_wf h) (hr : resize_hashmap h c = some h2) (h0 : 0 < c) :
    mvn_hmap_wf h2 := by
  obtain ⟨hbc, hlen, _, hperm⟩ := resize_hashmap_spec h c h2 hr h0
  have hbuckets : h2.buckets = h.entries.foldl rehash_insert (List.replicate c []) := by
    rw [resize_hashmap] at hr
    split at hr
    · simp at hr
    · split at hr
      · simp at hr
      · simp only [Option.some.injEq] at hr
        rw [← hr]
  refine ⟨by rw [hbc]; exact h0, ?_, ?_, ?_⟩
  · intro i _ e hmem
    have hok : buckets_ok c h2.buckets := by
      have hok0 : buckets_ok (List.replicate c ([] : List mvn_hmap_entry_t)).length
          (h.entries.foldl rehash_insert (List.replicate c [])) := by
        apply foldl_rehash_ok
        · rw [List.length_replicate]; exact h0
        · intro j e2 hmem2
          rw [getD_replicate_nil] at hmem2
          simp at hmem2
      rw [List.length_replicate] at hok0
      rw [hbuckets]
      exact hok0
    show hashW e.key % h2.buckets.length = i
    have hbc2 : h2.buckets.length = c := hbc
    rw [hbc2]
    exact hok i e hmem
  · have hmapperm : List.Perm (h.entries.map mvn_hmap_entry_t.key)
        (h2.entries.map mvn_hmap_entry_t.key) := (hperm.symm).map _
    exact hmapperm.nodup hwf.2.2.1
  · rw [hlen, hwf.2.2.2, hperm.length_eq]

theorem resize_hashmap_get (h : mvn_hmap_t) (c : Nat) (h2 : mvn_hmap_t)
    (hwf : mvn_hmap_wf h) (hr : resize_hashmap h c = some h2) (h0 : 0 < c)
    (k : List Nat) : mvn_hmap_get h2 k = mvn_hmap_get h k := by
  have hwf2 := resize_hashmap_wf h c h2 hwf hr h0
  have hperm := (resize_hashmap_spec h c h2 hr h0).2.2.2
  cases hget : mvn_hmap_get h k with
  | some v =>
    have hmem := (mvn_hmap_get_some_iff h hwf k v).1 hget
    exact (mvn_hmap_get_some_iff h2 hwf2 k v).2 (hperm.mem_iff.2 hmem)
  | none =>
    have hall := (mvn_hmap_get_none_iff h hwf k).1 hget
    exact (mvn_hmap_get_none_iff h2 hwf2 k).2
      (fun e he => hall e (hperm.mem_iff.1 he))

/-! ## The insert-or-update step -/

theorem mvn_hmap_put_update (h1 : mvn_hmap_t) (k v : List Nat) (e : mvn_hmap_entry_t)
    (hwf : mvn_hmap_wf h1)
    (hfind : find_entry k (h1.buckets.getD (hashW k % h1.bucket_count) []) = some e) :
    mvn_hmap_wf (mvn_hmap_put h1 k v) ∧
    mvn_hmap_get (mvn_hmap_put h1 k v) k = some v ∧
    (∀ k2, k2 ≠ k → mvn_hmap_get (mvn_hmap_put h1 k v) k2 = mvn_hmap_get h1 k2) ∧
    (mvn_hmap_put h1 k v).item_size = h1.item_size ∧
    (mvn_hmap_put h1 k v).bucket_count = h1.bucket_count ∧
    (mvn_hmap_put h1 k v).length = h1.length := by
  have hidx : hashW k % h1.bucket_count < h1.buckets.length :=
    Nat.mod_lt _ (wf_bc_pos h1 hwf)
  set idx := hashW k % h1.bucket_count with hidxdef
  set chain := h1.buckets.getD idx [] with hchaindef
  have hput : mvn_hmap_put h1 k v =
      { h1 with buckets := h1.buckets.set idx (update_chain k v chain) } := by
    simp only [mvn_hmap_put, ← hidxdef, ← hchaindef, hfind]
  have hbcm : ({ h1 with buckets := h1.buckets.set idx (update_chain k v chain) } :
      mvn_hmap_t).bucket_count = h1.bucket_count := by
    show (h1.buckets.set idx (update_chain k v chain)).length = h1.buckets.length
    exact List.length_set h1.buckets idx _
  have hchainm : ({ h1 with buckets := h1.buckets.set idx (update_chain k v chain) } :
      mvn_hmap_t).buckets.getD idx [] = update_chain k v chain :=
    getD_set_self _ _ _ hidx
  have hflat : ({ h1 with buckets := h1.buckets.set idx (update_chain k v chain) } :
      mvn_hmap_t).entries =
      (h1.buckets.take idx).flatten ++ update_chain k v chain ++
        (h1.buckets.drop (idx + 1)).flatten :=
    flatten_set h1.buckets idx _ hidx
  have hflat1 : h1.entries =
      (h1.buckets.take idx).flatten ++ chain ++ (h1.buckets.drop (idx + 1)).flatten :=
    flatten_decomp h1.buckets idx hidx
  have hmapkeys : (({ h1 with buckets := h1.buckets.set idx (update_chain k v chain) } :
      mvn_hmap_t).entries).map mvn_hmap_entry_t.key =
      (h1.entries).map mvn_hmap_entry_t.key := by
    rw [hflat, hflat1]
    simp only [List.map_append, update_chain_map_key]
  rw [hput]
  refine ⟨?_, ?_, ?_, rfl, hbcm, rfl⟩
  · -- well-formedness
    refine ⟨?_, ?_, ?_, ?_⟩
    · rw [hbcm]; exact wf_bc_pos h1 hwf
    · intro i _ e2 hmem
      rw [hbcm] at *
      rcases eq_or_ne idx i with rfl | hne
      · rw [hchainm] at hmem
        obtain ⟨e0, he0, hkey⟩ := mem_update_chain k v chain e2 hmem
        rw [hkey]
        exact wf_bucket_ok h1 hwf idx e0 he0
      · have : ({ h1 with buckets := h1.buckets.set idx (update_chain k v chain) } :
            mvn_hmap_t).buckets.getD i [] = h1.buckets.getD i [] :=
          getD_set_ne _ _ _ _ hne
        rw [this] at hmem
        exact wf_bucket_ok h1 hwf i e2 hmem
    · rw [hmapkeys]
      exact hwf.2.2.1
    · show h1.length = _
      have : (({ h1 with buckets := h1.buckets.set idx (update_chain k v chain) } :
          mvn_hmap_t).entries).length = (h1.entries).length := by
        have := congrArg List.length hmapkeys
        simpa using this
      rw [this, ← hwf.2.2.2]
  · -- get of the written key
    rw [mvn_hmap_get, hbcm, ← hidxdef, hchainm, find_update_self k v chain e hfind]
    rfl
  · -- other keys unchanged
    intro k2 hk2
    rw [mvn_hmap_get, mvn_hmap_get, hbcm]
    rcases eq_or_ne (hashW k2 % h1.bucket_count) idx with heq | hne
    · rw [heq, hchainm, ← hchaindef, find_update_other k v k2 chain hk2]
    · have : ({ h1 with buckets := h1.buckets.set idx (update_chain k v chain) } :
          mvn_hmap_t).buckets.getD (hashW k2 % h1.bucket_count) [] =
          h1.buckets.getD (hashW k2 % h1.bucket_count) [] :=
        getD_set_ne _ _ _ _ (fun h => hne h.symm)
      rw [this]

theorem mvn_hmap_put_insert (h1 : mvn_hmap_t) (k v : List Nat)
    (hwf : mvn_hmap_wf h1)
    (hfind : find_entry k (h1.buckets.getD (hashW k % h1.bucket_count) []) = none) :
    mvn_hmap_wf (mvn_hmap_put h1 k v) ∧
    mvn_hmap_get (mvn_hmap_put h1 k v) k = some v ∧
    (∀ k2, k2 ≠ k → mvn_hmap_get (mvn_hmap_put h1 k v) k2 = mvn_hmap_get h1 k2) ∧
    (mvn_hmap_put h1 k v).item_size = h1.item_size ∧
    (mvn_hmap_put h1 k v).bucket_count = h1.bucket_count ∧
    (mvn_hmap_put h1 k v).length = h1.length + 1 := by
  have hidx : hashW k % h1.bucket_count < h1.buckets.length :=
    Nat.mod_lt _ (wf_bc_pos h1 hwf)
  have hfresh : ∀ e2 ∈ h1.entries, e2.key ≠ k := by
    have hget : mvn_hmap_get h1 k = none := by
      rw [mvn_hmap_get, hfind]
      rfl
    exact (mvn_hmap_get_none_iff h1 hwf k).1 hget
  set idx := hashW k % h1.bucket_count with hidxdef
  set chain := h1.buckets.getD idx [] with hchaindef
  set newchain : List mvn_hmap_entry_t := ⟨k, v⟩ :: chain with hnewchain
  have hput : mvn_hmap_put h1 k v =
      { h1 with buckets := h1.buckets.set idx newchain, length := h1.length + 1 } := by
    simp only [mvn_hmap_put, ← hidxdef, ← hchaindef, hfind, hnewchain]
  have hbcm : ({ h1 with
      buckets := h1.buckets.set idx newchain
      length := h1.length + 1 } : mvn_hmap_t).bucket_count = h1.bucket_count := by
    show (h1.buckets.set idx newchain).length = h1.buckets.length
    exact List.length_set h1.buckets idx _
  have hchainm : ({ h1 with
      buckets := h1.buckets.set idx newchain
      length := h1.length + 1 } : mvn_hmap_t).buckets.getD idx [] = newchain :=
    getD_set_self _ _ _ hidx
  have hflat : ({ h1 with
      buckets := h1.buckets.set idx newchain
      length := h1.length + 1 } : mvn_hmap_t).entries =
      (h1.buckets.take idx).flatten ++ newchain ++
        (h1.buckets.drop (idx + 1)).flatten :=
    flatten_set h1.buckets idx _ hidx
  have hflat1 : h1.entries =
      (h1.buckets.take idx).flatten ++ chain ++ (h1.buckets.drop (idx + 1)).flatten :=
    flatten_decomp h1.buckets idx hidx
  rw [hput]
  refine ⟨?_, ?_, ?_, rfl, hbcm, rfl⟩
  · -- well-formedness
    refine ⟨?_, ?_, ?_, ?_⟩
    · rw [hbcm]; exact wf_bc_pos h1 hwf
    · intro i _ e2 hmem
      rw [hbcm] at *
      rcases eq_or_ne idx i with rfl | hne
      · rw [hchainm] at hmem
        rcases List.mem_cons.1 hmem with rfl | hmem2
        · exact hidxdef.symm
        · exact wf_bucket_ok h1 hwf idx e2 hmem2
      · have : ({ h1 with
            buckets := h1.buckets.set idx newchain
            length := h1.length + 1 } : mvn_hmap_t).buckets.getD i [] =
            h1.buckets.getD i [] :=
          getD_set_ne _ _ _ _ hne
        rw [this] at hmem
        exact wf_bucket_ok h1 hwf i e2 hmem
    · rw [hflat, hnewchain]
      have hknotin : k ∉ (h1.entries).map mvn_hmap_entry_t.key := by
        intro hk
        obtain ⟨e2, he2, hkey⟩ := List.mem_map.1 hk
        exact hfresh e2 he2 hkey
      rw [hflat1] at hknotin
      have hnodup1 := hwf.2.2.1
      rw [hflat1] at hnodup1
      simp only [List.map_append, List.map_cons, List.append_assoc,
        List.cons_append] at *
      rw [List.nodup_middle]
      rw [List.nodup_cons]
      exact ⟨hknotin, hnodup1⟩
    · show h1.length + 1 = _
      have hlen : (({ h1 with
          buckets := h1.buckets.set idx newchain
          length := h1.length + 1 } : mvn_hmap_t).entries).length =
          (h1.entries).length + 1 := by
        rw [hflat, hflat1, hnewchain]
        simp only [List.length_append, List.length_cons]
        omega
      rw [hlen, ← hwf.2.2.2]
  · -- get of the inserted key
    rw [mvn_hmap_get, hbcm, ← hidxdef, hchainm, hnewchain, find_entry, if_pos rfl]
    rfl
  · -- other keys unchanged
    intro k2 hk2
    rw [mvn_hmap_get, mvn_hmap_get, hbcm]
    rcases eq_or_ne (hashW k2 % h1.bucket_count) idx with heq | hne
    · rw [heq, hchainm, hnewchain, ← hchaindef]
      rw [find_entry, if_neg (by simpa using fun hk => hk2 hk.symm)]
    · have : ({ h1 with
          buckets := h1.buckets.set idx newchain
          length := h1.length + 1 } : mvn_hmap_t).buckets.getD
            (hashW k2 % h1.bucket_count) [] =
          h1.buckets.getD (hashW k2 % h1.bucket_count) [] :=
        getD_set_ne _ _ _ _ (fun h => hne h.symm)
      rw [this]

theorem mvn_hmap_put_spec (h1 : mvn_hmap_t) (k v : List Nat) (hwf : mvn_hmap_wf h1) :
    mvn_hmap_wf (mvn_hmap_put h1 k v) ∧
    mvn_hmap_get (mvn_hmap_put h1 k v) k = some v ∧
    (∀ k2, k2 ≠ k → mvn_hmap_get (mvn_hmap_put h1 k v) k2 = mvn_hmap_get h1 k2) ∧
    (mvn_hmap_put h1 k v).item_size = h1.item_size ∧
    (mvn_hmap_put h1 k v).bucket_count = h1.bucket_count ∧
    (mvn_hmap_put h1 k v).length =
      (if mvn_hmap_get h1 k = none then h1.length + 1 else h1.length) := by
  cases hfind : find_entry k (h1.buckets.getD (hashW k % h1.bucket_count) []) with
  | some e =>
    obtain ⟨hwf2, hget, hother, hsz, hbc, hlen⟩ := mvn_hmap_put_update h1 k v e hwf hfind
    refine ⟨hwf2, hget, hother, hsz, hbc, ?_⟩
    have : mvn_hmap_get h1 k = some e.value := by
      rw [mvn_hmap_get, hfind]
      rfl
    rw [this] at *
    simpa using hlen
  | none =>
    obtain ⟨hwf2, hget, hother, hsz, hbc, hlen⟩ := mvn_hmap_put_insert h1 k v hwf hfind
    refine ⟨hwf2, hget, hother, hsz, hbc, ?_⟩
    have : mvn_hmap_get h1 k = none := by
      rw [mvn_hmap_get, hfind]
      rfl
    rw [this] at *
    simpa using hlen

/-! ## `mvn_hmap_set`: the combined resize-then-put operation -/

theorem mvn_hmap_set_eq_of_no_resize (h : mvn_hmap_t) (k v : List Nat)
    (hload : ¬ h.bucket_count * 3 / 4 < h.length) :
    mvn_hmap_set h k v = some (mvn_hmap_put h k v) := by
  rw [mvn_hmap_set]
  simp only [if_neg hload]

theorem mvn_hmap_set_eq_of_resize (h : mvn_hmap_t) (k v : List Nat)
    (hload : h.bucket_count * 3 / 4 < h.length) :
    mvn_hmap_set h k v =
      (resize_hashmap h (h.bucket_count * MVN_HMAP_GROWTH_FACTOR)).map
        (fun h1 => mvn_hmap_put h1 k v) := by
  rw [mvn_hmap_set]
  simp only [if_pos hload]
  cases resize_hashmap h (h.bucket_count * MVN_HMAP_GROWTH_FACTOR) <;> rfl

theorem resize_hashmap_eq_some (h : mvn_hmap_t) (c : Nat)
    (hc1 : h.length ≤ c) (hc2 : c ≤ SIZE_MAX / 8) :
    ∃ h2, resize_hashmap h c = some h2 := by
  rw [resize_hashmap, if_neg (by omega), if_neg (by omega)]
  exact ⟨_, rfl⟩

/-- Everything `mvn_hmap_set` guarantees on success, for a well-formed map. -/
theorem mvn_hmap_set_spec (h : mvn_hmap_t) (k v : List Nat) (m : mvn_hmap_t)
    (hwf : mvn_hmap_wf h) (hm : mvn_hmap_set h k v = some m) :
    mvn_hmap_wf m ∧
    mvn_hmap_get m k = some v ∧
    (∀ k2, k2 ≠ k → mvn_hmap_get m k2 = mvn_hmap_get h k2) ∧
    m.item_size = h.item_size ∧
    m.bucket_count = (if h.bucket_count * 3 / 4 < h.length then
      h.bucket_count * MVN_HMAP_GROWTH_FACTOR else h.bucket_count) ∧
    m.length = (if mvn_hmap_get h k = none then h.length + 1 else h.length) := by
  by_cases hload : h.bucket_count * 3 / 4 < h.length
  · rw [mvn_hmap_set_eq_of_resize h k v hload] at hm
    cases hres : resize_hashmap h (h.bucket_count * MVN_HMAP_GROWTH_FACTOR) with
    | none => rw [hres] at hm; simp at hm
    | some h1 =>
      rw [hres] at hm
      simp only [Option.map_some'] at hm
      have h0 : 0 < h.bucket_count * MVN_HMAP_GROWTH_FACTOR := by
        have := wf_bc_pos h hwf
        simp only [MVN_HMAP_GROWTH_FACTOR]
        omega
      have hwf1 := resize_hashmap_wf h _ h1 hwf hres h0
      obtain ⟨hbc1, hlen1, hsz1, _⟩ := resize_hashmap_spec h _ h1 hres h0
      have hget1 := resize_hashmap_get h _ h1 hwf hres h0
      obtain ⟨hwf2, hget, hother, hsz, hbc, hlen⟩ := mvn_hmap_put_spec h1 k v hwf1
      have hmeq : m = mvn_hmap_put h1 k v := by
        injection hm.symm
      subst hmeq
      refine ⟨hwf2, hget, ?_, by rw [hsz, hsz1], by rw [hbc, hbc1, if_pos hload], ?_⟩
      · intro k2 hk2
        rw [hother k2 hk2, hget1 k2]
      · rw [hlen, hget1 k, hlen1]
  · rw [mvn_hmap_set_eq_of_no_resize h k v hload] at hm
    have hmeq : m = mvn_hmap_put h k v := by
      injection hm.symm
    subst hmeq
    obtain ⟨hwf2, hget, hother, hsz, hbc, hlen⟩ := mvn_hmap_put_spec h k v hwf
    exact ⟨hwf2, hget, hother, hsz, by rw [hbc, if_neg hload], hlen⟩

/-- `mvn_hmap_set` succeeds whenever the resize it may trigger can
allocate: the doubled bucket count is at least `length` and small enough
for its bucket array. -/
theorem mvn_hmap_set_total (h : mvn_hmap_t) (k v : List Nat)
    (hc1 : h.length ≤ h.bucket_count * MVN_HMAP_GROWTH_FACTOR)
    (hc2 : h.bucket_count * MVN_HMAP_GROWTH_FACTOR ≤ SIZE_MAX / 8) :
    ∃ m, mvn_hmap_set h k v = some m := by
  by_cases hload : h.bucket_count * 3 / 4 < h.length
  · rw [mvn_hmap_set_eq_of_resize h k v hload]
    obtain ⟨h2, hres⟩ := resize_hashmap_eq_some h _ hc1 hc2
    rw [hres]
    exact ⟨_, rfl⟩
  · exact ⟨_, mvn_hmap_set_eq_of_no_resize h k v hload⟩

/-! ## `mvn_hmap_init` facts -/

theorem mvn_hmap_init_some (isz cap : Nat) (hisz : isz ≠ 0)
    (hcap : (if cap = 0 then MVN_HMAP_DEFAULT_CAPACITY else cap) ≤ SIZE_MAX / 8) :
    mvn_hmap_init isz cap =
      some ⟨List.replicate (if cap = 0 then MVN_HMAP_DEFAULT_CAPACITY else cap) [],
        0, isz⟩ := by
  rw [mvn_hmap_init, if_neg hisz]
  rw [if_neg (by omega)]

theorem mvn_hmap_init_wf (isz c : Nat) (h0 : 0 < c) :
    mvn_hmap_wf ⟨List.replicate c [], 0, isz⟩ := by
  refine ⟨?_, ?_, ?_, ?_⟩
  · show 0 < (List.replicate c ([] : List mvn_hmap_entry_t)).length
    simpa using h0
  · intro i _ e hmem
    have : (⟨List.replicate c [], 0, isz⟩ : mvn_hmap_t).buckets.getD i [] = [] :=
      getD_replicate_nil c i
    rw [this] at hmem
    simp at hmem
  · show ((List.replicate c ([] : List mvn_hmap_entry_t)).flatten.map _).Nodup
    rw [flatten_replicate_nil]
    exact List.nodup_nil
  · show 0 = (List.replicate c ([] : List mvn_hmap_entry_t)).flatten.length
    rw [flatten_replicate_nil]
    rfl

theorem mvn_hmap_init_get (isz c : Nat) (k : List Nat) :
    mvn_hmap_get ⟨List.replicate c [], 0, isz⟩ k = none := by
  rw [mvn_hmap_get]
  have : (⟨List.replicate c [], 0, isz⟩ : mvn_hmap_t).buckets.getD
      (hashW k % (⟨List.replicate c [], 0, isz⟩ : mvn_hmap_t).bucket_count) [] = [] :=
    getD_replicate_nil c _
  rw [this]
  rfl

/-! ## Claim C4: set/get semantics for present and fresh keys -/

/-- C4: on a well-formed map, a successful `set(k, v2)` over a key already
present with value `v1` leaves `length` unchanged and a subsequent
`get(k)` returns `v2`; a successful `set` of an absent key increments
`length` by exactly one and `get(k)` returns the stored value. -/
theorem mvn_hmap_set_get_length (h : mvn_hmap_t) (k v v1 : List Nat) (m : mvn_hmap_t)
    (hwf : mvn_hmap_wf h) (hm : mvn_hmap_set h k v = some m) :
    (mvn_hmap_get h k = some v1 → m.length = h.length ∧ mvn_hmap_get m k = some v) ∧
    (mvn_hmap_get h k = none → m.length = h.length + 1 ∧ mvn_hmap_get m k = some v) := by
  obtain ⟨_, hget, _, _, _, hlen⟩ := mvn_hmap_set_spec h k v m hwf hm
  constructor
  · intro hpres
    rw [hpres] at hlen
    simp only [reduceCtorEq, if_false] at hlen
    exact ⟨hlen, hget⟩
  · intro habs
    rw [habs] at hlen
    simp only [if_true] at hlen
    exact ⟨hlen, hget⟩

/-- The concrete map `{"a" ↦ [1]}` over 16 buckets (scenario 2's start). -/
def hmapA : mvn_hmap_t :=
  match mvn_hmap_set ⟨List.replicate 16 [], 0, 4⟩ [97] [1] with
  | some m => m
  | none => ⟨[], 0, 0⟩

/-- The map `hmapA` after the overwriting call `set("a", [99])`. -/
def hmapA2 : mvn_hmap_t :=
  match mvn_hmap_set hmapA [97] [99] with
  | some m => m
  | none => ⟨[], 0, 0⟩

/-- C4 witness: overwriting the key `"a"` in the one-entry map `hmapA`. -/
theorem mvn_hmap_set_get_length_witness :
    (mvn_hmap_get hmapA [97] = some [1] →
      hmapA2.length = hmapA.length ∧ mvn_hmap_get hmapA2 [97] = some [99]) ∧
    (mvn_hmap_get hmapA [97] = none →
      hmapA2.length = hmapA.length + 1 ∧ mvn_hmap_get hmapA2 [97] = some [99]) :=
  mvn_hmap_set_get_length hmapA [97] [99] [1] hmapA2 (by decide) (by decide)

/-! ## Claim C1: when the load-factor resize actually happens -/

theorem mvn_hmap_put_bucket_count (h1 : mvn_hmap_t) (k v : List Nat) :
    (mvn_hmap_put h1 k v).bucket_count = h1.bucket_count := by
  cases hfind : find_entry k (h1.buckets.getD (hashW k % h1.bucket_count) []) with
  | some e =>
    simp only [mvn_hmap_put, hfind]
    exact List.length_set h1.buckets _ _
  | none =>
    simp only [mvn_hmap_put, hfind]
    exact List.length_set h1.buckets _ _

/-- The map holding keys `[1]` … `[12]` (single-byte keys) in 16 buckets:
length 12 sits exactly at the load-factor threshold `16 * 0.75`. -/
def hmap12 : mvn_hmap_t :=
  match mvn_hmap_set_list ⟨List.replicate 16 [], 0, 1⟩ (fun k => k)
      [[1], [2], [3], [4], [5], [6], [7], [8], [9], [10], [11], [12]] with
  | some m => m
  | none => ⟨[], 0, 0⟩

/-- C1 (counterexample): inserting a 13th distinct key into a 16-bucket map
of length 12 succeeds and yields length 13 — which exceeds
`bucket_count * 0.75 = 12` — while `bucket_count` stays 16: the resize
check compares the *pre-insertion* length with the threshold, so the very
insertion that tips the map over the threshold is still served from the
old table, and no resize occurs during that call. -/
theorem mvn_hmap_set_resize_timing_cex :
    hmap12.length = 12 ∧ hmap12.bucket_count = 16 ∧
    (mvn_hmap_set hmap12 [13] [13]).map (fun m => (m.length, m.bucket_count)) =
      some (13, 16) ∧
    (16 * 3 / 4 : Nat) = 12 ∧ ¬ (13 : Nat) ≤ 12 := by decide

/-- C1 (amended): the doubling resize happens at the start of a `set` call
exactly when the *pre-call* `length` already exceeds
`bucket_count * 0.75`; in particular the insertion that first pushes
`length` over the threshold leaves `bucket_count` unchanged, and the
doubling occurs on the following `set` call.  (The two hypotheses are the
allocation preconditions under which the triggered resize cannot fail.) -/
theorem mvn_hmap_set_resize_timing (h : mvn_hmap_t) (k v : List Nat)
    (hc1 : h.length ≤ h.bucket_count * MVN_HMAP_GROWTH_FACTOR)
    (hc2 : h.bucket_count * MVN_HMAP_GROWTH_FACTOR ≤ SIZE_MAX / 8) :
    ∃ m, mvn_hmap_set h k v = some m ∧
      m.bucket_count = (if h.bucket_count * 3 / 4 < h.length then
        h.bucket_count * MVN_HMAP_GROWTH_FACTOR else h.bucket_count) := by
  obtain ⟨m, hm⟩ := mvn_hmap_set_total h k v hc1 hc2
  refine ⟨m, hm, ?_⟩
  by_cases hload : h.bucket_count * 3 / 4 < h.length
  · rw [mvn_hmap_set_eq_of_resize h k v hload] at hm
    cases hres : resize_hashmap h (h.bucket_count * MVN_HMAP_GROWTH_FACTOR) with
    | none => rw [hres] at hm; simp at hm
    | some h1 =>
      rw [hres] at hm
      simp only [Option.map_some'] at hm
      have h0 : 0 < h.bucket_count * MVN_HMAP_GROWTH_FACTOR := by
        simp only [MVN_HMAP_GROWTH_FACTOR] at *
        omega
      obtain ⟨hbc1, _, _, _⟩ := resize_hashmap_spec h _ h1 hres h0
      have hmeq : m = mvn_hmap_put h1 k v := by injection hm.symm
      rw [hmeq, mvn_hmap_put_bucket_count, hbc1, if_pos hload]
  · rw [mvn_hmap_set_eq_of_no_resize h k v hload] at hm
    have hmeq : m = mvn_hmap_put h k v := by injection hm.symm
    rw [hmeq, mvn_hmap_put_bucket_count, if_neg hload]

/-- The map `hmap12` after the threshold-crossing 13th insertion: length 13
with `bucket_count` still 16, so the *next* `set` call triggers the resize. -/
def hmap13 : mvn_hmap_t :=
  match mvn_hmap_set hmap12 [13] [13] with
  | some m => m
  | none => ⟨[], 0, 0⟩

/-- C1 witness: the 14th insertion, from a map whose length 13 already
exceeds the threshold 12, doubles the bucket count to 32. -/
theorem mvn_hmap_set_resize_timing_witness :
    13 ≤ hmap13.bucket_count * MVN_HMAP_GROWTH_FACTOR ∧
    ∃ m, mvn_hmap_set hmap13 [14] [14] = some m ∧
      m.bucket_count = (if hmap13.bucket_count * 3 / 4 < hmap13.length then
        hmap13.bucket_count * MVN_HMAP_GROWTH_FACTOR else hmap13.bucket_count) :=
  ⟨by decide, mvn_hmap_set_resize_timing hmap13 [14] [14] (by decide) (by decide)⟩

/-! ## Claim C5: delete semantics -/

theorem chain_keys_nodup (h : mvn_hmap_t) (hwf : mvn_hmap_wf h) (i : Nat)
    (hi : i < h.buckets.length) :
    ((h.buckets.getD i []).map mvn_hmap_entry_t.key).Nodup := by
  have hnodup := hwf.2.2.1
  rw [mvn_hmap_t.entries, flatten_decomp h.buckets i hi] at hnodup
  simp only [List.map_append] at hnodup
  exact (hnodup.of_append_left).of_append_right

/-- C5: on a well-formed map, `delete(key)` of an absent key returns false
and leaves the map completely unmodified, while `delete(key)` of a present
key reports true, decrements `length` by one, makes a subsequent
`get(key)` return null, and leaves every other key's value unchanged. -/
theorem mvn_hmap_delete_spec (h : mvn_hmap_t) (k : List Nat) (hwf : mvn_hmap_wf h) :
    (mvn_hmap_get h k = none → mvn_hmap_delete h k = (h, false)) ∧
    (∀ v, mvn_hmap_get h k = some v →
      (mvn_hmap_delete h k).2 = true ∧
      (mvn_hmap_delete h k).1.length = h.length - 1 ∧
      mvn_hmap_get (mvn_hmap_delete h k).1 k = none ∧
      (∀ k2, k2 ≠ k → mvn_hmap_get (mvn_hmap_delete h k).1 k2 = mvn_hmap_get h k2)) := by
  have hidx : hashW k % h.bucket_count < h.buckets.length :=
    Nat.mod_lt _ (wf_bc_pos h hwf)
  set idx := hashW k % h.bucket_count with hidxdef
  set chain := h.buckets.getD idx [] with hchaindef
  constructor
  · intro hget
    have hfind : find_entry k chain = none := by
      rw [mvn_hmap_get, ← hidxdef, ← hchaindef] at hget
      cases hf : find_entry k chain with
      | none => rfl
      | some e => rw [hf] at hget; simp at hget
    have hrem : remove_entry k chain = none := (remove_entry_eq_none k chain).2 hfind
    rw [mvn_hmap_delete, ← hidxdef, ← hchaindef, hrem]
  · intro v hget
    have hfind : ∃ e, find_entry k chain = some e := by
      rw [mvn_hmap_get, ← hidxdef, ← hchaindef] at hget
      cases hf : find_entry k chain with
      | none => rw [hf] at hget; simp at hget
      | some e => exact ⟨e, rfl⟩
    obtain ⟨e, hfinde⟩ := hfind
    have hrem : ∃ c2, remove_entry k chain = some c2 := by
      cases hr : remove_entry k chain with
      | none =>
        rw [remove_entry_eq_none k chain, hfinde] at hr
        simp at hr
      | some c2 => exact ⟨c2, rfl⟩
    obtain ⟨c2, hremc⟩ := hrem
    have hdel : mvn_hmap_delete h k =
        ({ h with
            buckets := h.buckets.set idx c2
            length := h.length - 1 }, true) := by
      rw [mvn_hmap_delete, ← hidxdef, ← hchaindef, hremc]
    rw [hdel]
    have hbcm : ({ h with
        buckets := h.buckets.set idx c2
        length := h.length - 1 } : mvn_hmap_t).bucket_count = h.bucket_count := by
      show (h.buckets.set idx c2).length = h.buckets.length
      exact List.length_set h.buckets idx _
    have hchainm : ({ h with
        buckets := h.buckets.set idx c2
        length := h.length - 1 } : mvn_hmap_t).buckets.getD idx [] = c2 :=
      getD_set_self _ _ _ hidx
    refine ⟨rfl, rfl, ?_, ?_⟩
    · -- get of the deleted key is gone
      obtain ⟨pre, e0, post, hchain_eq, hc2_eq, hkey0, hpre⟩ :=
        remove_entry_some_spec k chain c2 hremc
      have hcnodup := chain_keys_nodup h hwf idx hidx
      rw [← hchaindef, hchain_eq] at hcnodup
      have hknotin : ∀ x ∈ pre ++ post, x.key ≠ k := by
        intro x hx hxk
        simp only [List.map_append, List.map_cons] at hcnodup
        have := List.nodup_middle.1 (by
          rw [hkey0] at hcnodup
          exact hcnodup)
        rw [List.nodup_cons] at this
        apply this.1
        rw [← List.map_append]
        exact List.mem_map.2 ⟨x, hx, hxk⟩
      have hfind2 : find_entry k c2 = none := by
        rw [hc2_eq]
        exact (find_entry_eq_none k _).2 hknotin
      rw [mvn_hmap_get, hbcm, ← hidxdef, hchainm, hfind2]
      rfl
    · -- other keys unchanged
      intro k2 hk2
      rw [mvn_hmap_get, mvn_hmap_get, hbcm]
      rcases eq_or_ne (hashW k2 % h.bucket_count) idx with heq | hne
      · rw [heq, hchainm, ← hchaindef,
          find_remove_other k k2 chain c2 hremc hk2]
      · have : ({ h with
            buckets := h.buckets.set idx c2
            length := h.length - 1 } : mvn_hmap_t).buckets.getD
              (hashW k2 % h.bucket_count) [] =
            h.buckets.getD (hashW k2 % h.bucket_count) [] :=
          getD_set_ne _ _ _ _ (fun hx => hne hx.symm)
        rw [this]

/-- C5 witness: deleting the only key of `hmapA`, then the absent-key
no-op on the resulting empty map is exercised through the same theorem at
a second key. -/
theorem mvn_hmap_delete_spec_witness :
    (mvn_hmap_get hmapA [98] = none → mvn_hmap_delete hmapA [98] = (hmapA, false)) ∧
    (∀ v, mvn_hmap_get hmapA [98] = some v →
      (mvn_hmap_delete hmapA [98]).2 = true ∧
      (mvn_hmap_delete hmapA [98]).1.length = hmapA.length - 1 ∧
      mvn_hmap_get (mvn_hmap_delete hmapA [98]).1 [98] = none ∧
      (∀ k2, k2 ≠ [98] →
        mvn_hmap_get (mvn_hmap_delete hmapA [98]).1 k2 = mvn_hmap_get hmapA k2)) :=
  mvn_hmap_delete_spec hmapA [98] (by decide)

/-! ## Claim C3: crossing the load factor doubles the bucket count -/

theorem mvn_hmap_set_list_loop (val : List Nat → List Nat) :
    ∀ (ks : List (List Nat)) (m : mvn_hmap_t),
      mvn_hmap_wf m → ks.Nodup → (∀ k ∈ ks, mvn_hmap_get m k = none) →
      m.length + ks.length = 20 →
      m.bucket_count = (if m.length < 14 then 16 else 32) →
      ∃ m2, mvn_hmap_set_list m val ks = some m2 ∧ m2.bucket_count = 32 ∧
        (∀ k ∈ ks, mvn_hmap_get m2 k = some (val k)) ∧
        (∀ k2 v2, mvn_hmap_get m k2 = some v2 → mvn_hmap_get m2 k2 = some v2) := by
  intro ks
  induction ks with
  | nil =>
    intro m _ _ _ hlen hbc
    refine ⟨m, rfl, ?_, by simp, fun k2 v2 hk2 => hk2⟩
    simp only [List.length_nil, Nat.add_zero] at hlen
    rw [hbc, hlen]
    norm_num
  | cons k ks ih =>
    intro m hwf hnd hfresh hlen hbc
    have hklen : m.length + ks.length + 1 = 20 := by
      simpa [Nat.add_comm, Nat.add_assoc, Nat.add_left_comm] using hlen
    have hsm : (64 : Nat) ≤ SIZE_MAX / 8 := by decide
    have hbcval : m.bucket_count = 16 ∨ m.bucket_count = 32 := by
      rw [hbc]
      split <;> simp
    have hc1 : m.length ≤ m.bucket_count * MVN_HMAP_GROWTH_FACTOR := by
      simp only [MVN_HMAP_GROWTH_FACTOR]
      rcases hbcval with hb | hb <;> omega
    have hc2 : m.bucket_count * MVN_HMAP_GROWTH_FACTOR ≤ SIZE_MAX / 8 := by
      simp only [MVN_HMAP_GROWTH_FACTOR]
      rcases hbcval with hb | hb <;> omega
    obtain ⟨m1, hm1⟩ := mvn_hmap_set_total m k (val k) hc1 hc2
    have hgetk : mvn_hmap_get m k = none := hfresh k (by simp)
    obtain ⟨hwf1, hget1, hother1, _, hbcm1, hlenm1⟩ :=
      mvn_hmap_set_spec m k (val k) m1 hwf hm1
    rw [hgetk] at hlenm1
    simp only [if_true] at hlenm1
    have hknotin : k ∉ ks := (List.nodup_cons.1 hnd).1
    have hnd2 : ks.Nodup := (List.nodup_cons.1 hnd).2
    have hfresh2 : ∀ k2 ∈ ks, mvn_hmap_get m1 k2 = none := by
      intro k2 hk2
      have hne : k2 ≠ k := fun hk => hknotin (hk ▸ hk2)
      rw [hother1 k2 hne]
      exact hfresh k2 (by simp [hk2])
    have hlen2 : m1.length + ks.length = 20 := by omega
    have hbc2 : m1.bucket_count = (if m1.length < 14 then 16 else 32) := by
      rw [hbcm1, hlenm1, hbc]
      simp only [MVN_HMAP_GROWTH_FACTOR]
      split_ifs <;> omega
    obtain ⟨m2, hlist, hbc32, hkall, hpres⟩ := ih m1 hwf1 hnd2 hfresh2 hlen2 hbc2
    refine ⟨m2, ?_, hbc32, ?_, ?_⟩
    · rw [mvn_hmap_set_list, hm1]
      exact hlist
    · intro k2 hk2
      rcases List.mem_cons.1 hk2 with rfl | hk2m
      · exact hpres k2 (val k2) hget1
      · exact hkall k2 hk2m
    · intro k2 v2 hk2
      have hne : k2 ≠ k := by
        intro hk
        rw [hk, hgetk] at hk2
        simp at hk2
      exact hpres k2 v2 (by rw [hother1 k2 hne]; exact hk2)

/-- C3: a map created with 16 buckets, after inserting 20 distinct keys
(the insertions that cross the 0.75 load factor), has had its
`bucket_count` doubled to 32, and every inserted key is still retrievable
via `get` with the value it was given. -/
theorem mvn_hmap_load_factor_growth (ks : List (List Nat)) (val : List Nat → List Nat)
    (isz : Nat) (m0 : mvn_hmap_t)
    (hinit : mvn_hmap_init isz 16 = some m0)
    (hnd : ks.Nodup) (hlen : ks.length = 20) :
    ∃ m, mvn_hmap_set_list m0 val ks = some m ∧
      16 < m.bucket_count ∧ m.bucket_count = 2 * 16 ∧
      ∀ k ∈ ks, mvn_hmap_get m k = some (val k) := by
  have hisz : isz ≠ 0 := by
    intro h0
    rw [mvn_hmap_init, if_pos h0] at hinit
    simp at hinit
  have hm0 : m0 = ⟨List.replicate 16 [], 0, isz⟩ := by
    rw [mvn_hmap_init_some isz 16 hisz (by decide)] at hinit
    simp only [Option.some.injEq] at hinit
    simp only [show ¬ (16 = 0) by decide, if_false] at hinit
    exact hinit.symm
  subst hm0
  have hwf0 : mvn_hmap_wf ⟨List.replicate 16 [], 0, isz⟩ :=
    mvn_hmap_init_wf isz 16 (by norm_num)
  have hbc0 : (⟨List.replicate 16 [], 0, isz⟩ : mvn_hmap_t).bucket_count = 16 := by
    show (List.replicate 16 ([] : List mvn_hmap_entry_t)).length = 16
    simp
  obtain ⟨m, hlist, hbc32, hall, _⟩ :=
    mvn_hmap_set_list_loop val ks ⟨List.replicate 16 [], 0, isz⟩ hwf0 hnd
      (fun k _ => mvn_hmap_init_get isz 16 k)
      (by rw [hlen])
      (by rw [hbc0]; rfl)
  exact ⟨m, hlist, by omega, by omega, hall⟩

/-- C3 witness: the 20 single-byte keys `[1]`, …, `[20]` with the identity
value assignment, inserted into a fresh 16-bucket map of 1-byte values. -/
theorem mvn_hmap_load_factor_growth_witness :
    ∃ m, mvn_hmap_set_list ⟨List.replicate 16 [], 0, 1⟩ (fun k => k)
        [[1], [2], [3], [4], [5], [6], [7], [8], [9], [10], [11], [12], [13],
         [14], [15], [16], [17], [18], [19], [20]] = some m ∧
      16 < m.bucket_count ∧ m.bucket_count = 2 * 16 ∧
      ∀ k ∈ ([[1], [2], [3], [4], [5], [6], [7], [8], [9], [10], [11], [12], [13],
         [14], [15], [16], [17], [18], [19], [20]] : List (List Nat)),
        mvn_hmap_get m k = some k :=
  mvn_hmap_load_factor_growth
    [[1], [2], [3], [4], [5], [6], [7], [8], [9], [10], [11], [12], [13],
     [14], [15], [16], [17], [18], [19], [20]]
    (fun k => k) 1 ⟨List.replicate 16 [], 0, 1⟩ (by decide) (by decide) (by decide)

end Mvn
